import Mathlib

/-!
Verification of the secret-resolution core (`src/prefect/client/secrets.py`,
class `Secret`, method `Secret.get`).

The embedding models the Python values that can flow through `Secret.get` as
the inductive `PyValue` (Python's `None`, `bool`, `int`, `str`, `list`, and
`dict` with string keys).  Model restrictions, stated once here:

* floating-point numbers are outside the model, so the embedded `json.loads`
  rejects numerals with a fractional part or an exponent (and the `NaN` /
  `Infinity` constants) where CPython would produce a `float`;
* a Python `bytes` object is modelled by its UTF-8 decoding (constructor
  `PyValue.bytes`): CPython 3.6 and later `json.loads` accepts `bytes` and
  decodes it before parsing, which the embedding mirrors; byte strings that
  are not valid UTF-8, or whose prefix makes `json.detect_encoding` choose
  UTF-16/32, are outside the model, and `bytearray` is identified with
  `bytes`;
* Lean's `Char` holds Unicode scalar values only, so a `\uXXXX` escape that
  denotes a lone surrogate makes the embedded parser fail, where CPython keeps
  the surrogate in the `str`.

None of the verified claims depends on these corners.  Everything else follows
CPython's `json` module: strict rejection of raw control characters inside
strings, `\uXXXX` escapes with surrogate-pair combination, the
`-?(0|[1-9][0-9]*)` integer grammar, last-wins duplicate object keys at the
first key's position (Python `dict` assignment), whitespace skipping, and
rejection of trailing data at top level.  The encoder is
`json.dumps(v, ensure_ascii=False)` with the default separators
`", "` and `": "`.
-/

/-- Python values reachable by `Secret.get` in the model: `None`, `bool`,
`int`, `str`, `bytes` (carried as its UTF-8 decoding, see the header
comment), `list`, and `dict` with string keys (`null` is Python's `None`). -/
inductive PyValue where
  | null
  | bool (b : Bool)
  | int (i : Int)
  | str (s : String)
  | bytes (s : String)
  | list (xs : List PyValue)
  | dict (ms : List (String × PyValue))

/-- Test for the `str` constructor (Python's `isinstance(v, str)`). -/
def PyValue.isStr : PyValue → Bool
  | .str _ => true
  | _ => false

/-- Test for the `bytes` constructor
(Python's `isinstance(v, (bytes, bytearray))`). -/
def PyValue.isBytes : PyValue → Bool
  | .bytes _ => true
  | _ => false

/-! ## Lexer helpers for the embedded `json.loads` -/

/-- Character class of JSON whitespace (Python `json.decoder.WHITESPACE_STR`). -/
def jsonWs (c : Char) : Bool :=
  c = ' ' || c = '\t' || c = '\n' || c = '\r'

/-- Drop leading JSON whitespace. -/
def pySkipWs : List Char → List Char
  | [] => []
  | c :: cs => if jsonWs c then pySkipWs cs else c :: cs

/-- Decimal-digit test (code points 48 through 57). -/
def isDig (c : Char) : Bool := 48 ≤ c.toNat && c.toNat ≤ 57

/-- Numeric value of one hexadecimal digit, either case (Python `int(_, 16)`
on the four characters after `\u`); code points 48-57, 97-102, 65-70. -/
def hexVal (c : Char) : Option Nat :=
  let n := c.toNat
  if 48 ≤ n ∧ n ≤ 57 then some (n - 48)
  else if 97 ≤ n ∧ n ≤ 102 then some (n - 87)
  else if 65 ≤ n ∧ n ≤ 70 then some (n - 55)
  else none

/-- Value of a four-hex-digit escape body. -/
def hexQuad (a b c d : Char) : Option Nat :=
  match hexVal a, hexVal b, hexVal c, hexVal d with
  | some x, some y, some z, some w => some (((x * 16 + y) * 16 + z) * 16 + w)
  | _, _, _, _ => none

/-- Single-character escapes accepted after a backslash
(Python `json.decoder.BACKSLASH`). -/
def shortEsc : Char → Option Char
  | '\"' => some '\"'
  | '\\' => some '\\'
  | '/' => some '/'
  | 'b' => some '\x08'
  | 'f' => some '\x0c'
  | 'n' => some '\n'
  | 'r' => some '\r'
  | 't' => some '\t'
  | _ => none

/-- Body of a JSON string after the opening quote, following CPython
`json.decoder.py_scanstring` with `strict=True`: raw control characters are
rejected, `\uXXXX` escapes are decoded, and a high surrogate followed by a
`\uXXXX` low surrogate combines into one scalar.  A lone surrogate fails in
the model (see the header comment). -/
def pstrBody : List Char → Option (List Char × List Char)
  | [] => none
  | '\"' :: rest => some ([], rest)
  | '\\' :: 'u' :: a :: b :: c :: d :: rest =>
    match hexQuad a b c d with
    | none => none
    | some n =>
      if 0xD800 ≤ n ∧ n ≤ 0xDBFF then
        match rest with
        | '\\' :: 'u' :: a2 :: b2 :: c2 :: d2 :: rest2 =>
          match hexQuad a2 b2 c2 d2 with
          | none => none
          | some m =>
            if 0xDC00 ≤ m ∧ m ≤ 0xDFFF then
              (pstrBody rest2).map fun p =>
                (Char.ofNat (0x10000 + (n - 0xD800) * 0x400 + (m - 0xDC00)) :: p.1, p.2)
            else none
        | _ => none
      else if 0xDC00 ≤ n ∧ n ≤ 0xDFFF then none
      else (pstrBody rest).map fun p => (Char.ofNat n :: p.1, p.2)
  | '\\' :: e :: rest =>
    match shortEsc e with
    | some ch => (pstrBody rest).map fun p => (ch :: p.1, p.2)
    | none => none
  | c :: rest =>
    if c.toNat < 0x20 then none
    else (pstrBody rest).map fun p => (c :: p.1, p.2)

/-- Longest prefix of decimal digits, with the remainder. -/
def digitSpan : List Char → List Char × List Char
  | [] => ([], [])
  | c :: cs =>
    if isDig c then
      let p := digitSpan cs
      (c :: p.1, p.2)
    else ([], c :: cs)

/-- Numeric value of a most-significant-first digit string. -/
def natOfDigits (ds : List Char) : Nat :=
  ds.foldl (fun a c => 10 * a + (c.toNat - '0'.toNat)) 0

/-- Unsigned integer part of the grammar `0|[1-9][0-9]*` (the `NUMBER_RE`
alternation of `json.scanner`): a leading `0` matches alone, so `01` leaves
`1` unconsumed exactly as the regular expression does. -/
def parseNatTok : List Char → Option (Nat × List Char)
  | [] => none
  | c :: rest =>
    if c = '0' then some (0, rest)
    else if isDig c then
      let p := digitSpan rest
      some (natOfDigits (c :: p.1), p.2)
    else none

/-- Signed integer token `-?(0|[1-9][0-9]*)`. -/
def parseIntTok : List Char → Option (Int × List Char)
  | [] => none
  | c :: rest =>
    if c = '-' then (parseNatTok rest).map fun p => (-(p.1 : Int), p.2)
    else (parseNatTok (c :: rest)).map fun p => ((p.1 : Int), p.2)

/-- Recognizer for the start of an exponent body `[-+]?[0-9]`. -/
def expTail : List Char → Bool
  | '+' :: d :: _ => isDig d
  | '-' :: d :: _ => isDig d
  | d :: _ => isDig d
  | [] => false

/-- Test whether the remainder extends the numeral into a `float` (fraction
`\.[0-9]` or exponent `[eE][-+]?[0-9]`), which is outside the model. -/
def floatCont : List Char → Bool
  | '.' :: d :: _ => isDig d
  | 'e' :: r => expTail r
  | 'E' :: r => expTail r
  | _ => false

/-- Numeral parse: an integer token that is not continued into a `float`. -/
def parseNum (cs : List Char) : Option (PyValue × List Char) :=
  (parseIntTok cs).bind fun p =>
    if floatCont p.2 then none else some (.int p.1, p.2)

/-! ## Python `dict` construction

Object members are collected in order and inserted one by one, modelling
`dict[key] = value`: an existing key keeps its position and takes the new
value, a new key is appended. -/

/-- Key membership in an association list (Python `key in dict`). -/
def hasKey (ms : List (String × PyValue)) (k : String) : Bool :=
  ms.any fun p => p.1 = k

/-- Single `dict[key] = value` assignment on the association-list model. -/
def dictPut (ms : List (String × PyValue)) (k : String) (v : PyValue) :
    List (String × PyValue) :=
  match ms with
  | [] => [(k, v)]
  | (k', v') :: t => if k' = k then (k, v) :: t else (k', v') :: dictPut t k v

/-- Build a `dict` from parsed members by repeated assignment. -/
def pyDictOf (pairs : List (String × PyValue)) : List (String × PyValue) :=
  pairs.foldl (fun acc p => dictPut acc p.1 p.2) []

/-! ## The recursive value parser

Fuel-indexed recursive descent over the character list; `json_loads` supplies
`length + 1` fuel, which the round-trip proof shows is enough for every
encoder output. -/

mutual

/-- Parse one JSON value (CPython `json.scanner.py_make_scanner`'s `_scan_once`,
restricted as in the header comment).  Unparseable input is `none`
(`json.JSONDecodeError`). -/
def parseVal : Nat → List Char → Option (PyValue × List Char)
  | 0, _ => none
  | fuel + 1, cs =>
    match pySkipWs cs with
    | 'n' :: 'u' :: 'l' :: 'l' :: r => some (.null, r)
    | 't' :: 'r' :: 'u' :: 'e' :: r => some (.bool true, r)
    | 'f' :: 'a' :: 'l' :: 's' :: 'e' :: r => some (.bool false, r)
    | '\"' :: r => (pstrBody r).map fun p => (.str (String.mk p.1), p.2)
    | '[' :: r =>
      match pySkipWs r with
      | [] => none
      | c :: r2 =>
        if c = ']' then some (.list [], r2)
        else (parseElts fuel (c :: r2)).map fun p => (.list p.1, p.2)
    | '\x7b' :: r =>
      match pySkipWs r with
      | [] => none
      | c :: r2 =>
        if c = '\x7d' then some (.dict [], r2)
        else (parseMems fuel (c :: r2)).map fun p => (.dict (pyDictOf p.1), p.2)
    | c :: r => parseNum (c :: r)
    | [] => none

/-- Parse one or more comma-separated array elements up to the closing `]`. -/
def parseElts : Nat → List Char → Option (List PyValue × List Char)
  | 0, _ => none
  | fuel + 1, cs =>
    (parseVal fuel cs).bind fun p =>
      match pySkipWs p.2 with
      | ',' :: r2 => (parseElts fuel r2).map fun q => (p.1 :: q.1, q.2)
      | ']' :: r2 => some ([p.1], r2)
      | _ => none

/-- Parse one or more `"key": value` object members up to the closing brace. -/
def parseMems : Nat → List Char → Option (List (String × PyValue) × List Char)
  | 0, _ => none
  | fuel + 1, cs =>
    match pySkipWs cs with
    | '\"' :: r =>
      (pstrBody r).bind fun kp =>
        match pySkipWs kp.2 with
        | ':' :: r2 =>
          (parseVal fuel r2).bind fun vp =>
            match pySkipWs vp.2 with
            | ',' :: r3 => (parseMems fuel r3).map fun q =>
                ((String.mk kp.1, vp.1) :: q.1, q.2)
            | '\x7d' :: r3 => some ([(String.mk kp.1, vp.1)], r3)
            | _ => none
        | _ => none
    | _ => none

end

/-- Embedded `json.loads`: parse one document and reject trailing data
(`raise JSONDecodeError("Extra data", ...)`). -/
def json_loads (s : String) : Option PyValue :=
  match parseVal (s.data.length + 1) s.data with
  | none => none
  | some p => if pySkipWs p.2 = [] then some p.1 else none

/-! ## The encoder, `json.dumps(v, ensure_ascii=False)` -/

/-- Lowercase hexadecimal digit character (`'\u%04x' % n`). -/
def hexCh (d : Nat) : Char :=
  if d < 10 then Char.ofNat ('0'.toNat + d) else Char.ofNat ('a'.toNat + d - 10)

/-- Escape one character of a string (CPython `ESCAPE_DCT`): the two mandatory
escapes, the five short control escapes, `\u00xx` for the other control
characters, every other character verbatim. -/
def escChar (c : Char) : List Char :=
  if c = '\"' then ['\\', '\"']
  else if c = '\\' then ['\\', '\\']
  else if c = '\n' then ['\\', 'n']
  else if c = '\r' then ['\\', 'r']
  else if c = '\t' then ['\\', 't']
  else if c = '\x08' then ['\\', 'b']
  else if c = '\x0c' then ['\\', 'f']
  else if c.toNat < 0x20 then
    ['\\', 'u', '0', '0', hexCh (c.toNat / 16), hexCh (c.toNat % 16)]
  else [c]

/-- Rendered JSON string: quote, escaped body, quote. -/
def strChars (s : String) : List Char :=
  '\"' :: (s.data.flatMap escChar ++ ['\"'])

/-- Decimal digits of a natural number, least significant first. -/
def natDigsRev : Nat → List Char
  | 0 => []
  | n + 1 => hexCh ((n + 1) % 10) :: natDigsRev ((n + 1) / 10)
decreasing_by exact Nat.div_lt_self (Nat.succ_pos n) (by omega)

/-- Decimal rendering of a natural number, most significant first. -/
def natChars (n : Nat) : List Char :=
  if n = 0 then ['0'] else (natDigsRev n).reverse

/-- Decimal rendering of a Python `int` (its `str()`). -/
def intChars (i : Int) : List Char :=
  if i < 0 then '-' :: natChars i.natAbs else natChars i.natAbs

mutual

/-- Characters of `json.dumps(v, ensure_ascii=False)` with the default
separators `", "` and `": "`.  On `bytes`, `json.dumps` raises `TypeError`
and produces no output; that constructor is excluded by `pyWF`, so the empty
rendering in its arm is never relied upon. -/
def dumpChars : PyValue → List Char
  | .null => "null".data
  | .bool true => "true".data
  | .bool false => "false".data
  | .int i => intChars i
  | .str s => strChars s
  | .bytes _ => []
  | .list xs => '[' :: dumpElts xs
  | .dict ms => '\x7b' :: dumpMems ms

/-- Elements of an array after the opening bracket, through the closing one. -/
def dumpElts : List PyValue → List Char
  | [] => [']']
  | x :: xs => dumpChars x ++ dumpEltsRest xs

/-- Continuation of an array after one element: either the closing bracket or
an item separator and the remaining elements. -/
def dumpEltsRest : List PyValue → List Char
  | [] => [']']
  | x :: xs => ',' :: ' ' :: (dumpChars x ++ dumpEltsRest xs)

/-- Members of an object after the opening brace, through the closing one. -/
def dumpMems : List (String × PyValue) → List Char
  | [] => ['\x7d']
  | (k, v) :: ms => strChars k ++ ':' :: ' ' :: (dumpChars v ++ dumpMemsRest ms)

/-- Continuation of an object after one member. -/
def dumpMemsRest : List (String × PyValue) → List Char
  | [] => ['\x7d']
  | (k, v) :: ms =>
    ',' :: ' ' :: (strChars k ++ ':' :: ' ' :: (dumpChars v ++ dumpMemsRest ms))

end

/-- Embedded `json.dumps` (see `dumpChars`). -/
def json_dumps (v : PyValue) : String :=
  String.mk (dumpChars v)

/-- Distinct-keys test for a key list. -/
def keysDistinct : List String → Bool
  | [] => true
  | k :: ks => (ks.all fun x => x != k) && keysDistinct ks

mutual

/-- Well-formedness of a `PyValue` as a JSON-encodable Python object: every
`dict` in it has pairwise-distinct keys (Python dictionaries cannot hold a
key twice) and no `bytes` occurs anywhere (`json.dumps` raises `TypeError`
on `bytes`). -/
def pyWF : PyValue → Bool
  | .null => true
  | .bool _ => true
  | .int _ => true
  | .str _ => true
  | .bytes _ => false
  | .list xs => pyWFList xs
  | .dict ms => keysDistinct (ms.map Prod.fst) && pyWFMems ms

/-- Well-formedness of every element of a list. -/
def pyWFList : List PyValue → Bool
  | [] => true
  | x :: xs => pyWF x && pyWFList xs

/-- Well-formedness of every member value of an object. -/
def pyWFMems : List (String × PyValue) → Bool
  | [] => true
  | (_, v) :: ms => pyWF v && pyWFMems ms

end

/-! ## The `Secret.get` embedding (`src/prefect/client/secrets.py`) -/

/-- Failure modes of `json.loads` as called inside `Secret.get`: a malformed
document (`json.JSONDecodeError`) or a non-`str` argument (`TypeError`); the
source catches exactly these two. -/
inductive JsonFail where
  | decodeError
  | typeError

/-- Embedded call `json.loads(value)` on a context value.  CPython (3.6 and
later) accepts `str`, `bytes`, and `bytearray` — a byte string is decoded
(UTF-8 in the model, see the header comment) and then parsed — and raises
`TypeError` on every other argument. -/
def pyJsonLoads : PyValue → Except JsonFail PyValue
  | .str s =>
    match json_loads s with
    | some v => .ok v
    | none => .error .decodeError
  | .bytes s =>
    match json_loads s with
    | some v => .ok v
    | none => .error .decodeError
  | _ => .error .typeError

/-- Shape of the value stored under the context key `"flow"`: either an
instance of `prefect.core.flow.Flow` (including subclasses, as `isinstance`
sees them) or any other Python object. -/
inductive FlowEntry where
  | flowInstance
  | nonFlow

/-- The slice of `prefect.context` that `Secret.get` reads: the optional
`"flow"` entry and the optional `"secrets"` mapping. -/
structure PrefectContext where
  flow : Option FlowEntry
  secrets : Option (List (String × PyValue))

/-- Embedded guard `isinstance(prefect.context.get("flow"), Flow)`:
`context.get` yields `None` for an absent key, and `None` is no `Flow`
instance. -/
def isFlowBuilding (ctx : PrefectContext) : Bool :=
  match ctx.flow with
  | some .flowInstance => true
  | _ => false

/-- Process state read by `Secret.get`: the context, the configuration flag
`prefect.config.cloud.use_local_secrets`, and the remote client as an oracle
for `Client().graphql(...)` answering a secret-value query by name (`ε` is the
type of client-side errors, kept abstract so that propagation of the very same
error can be stated). -/
structure PrefectEnv (ε : Type) where
  context : PrefectContext
  use_local_secrets : Bool
  clientQuery : String → Except ε PyValue

/-- Errors surfaced by `Secret.get`: the two `ValueError`s of the source (the
flow-build guard and the missing local secret) and the pass-through
`ClientError`. -/
inductive SecretError (ε : Type) where
  | contextViolation
  | notFound (name : String)
  | clientError (e : ε)

/-- Backend interactions observable during one `Secret.get` call: a lookup in
the local secret mapping or one remote query. -/
inductive SecretEvent where
  | localLookup (name : String)
  | remoteQuery (name : String)

/-- Modelled from the spec: `as_nested_dict` of `prefect.utilities.collections`
is not under `src/`; per the spec it normalizes the client payload "into the
system's canonical nested-value representation (mapping/sequence/scalar tree),
recursively, preserving structure".  `PyValue` already is that canonical tree,
so the normalization is the identity on it. -/
def as_nested_dict (v : PyValue) : PyValue := v

/-- Association-list lookup, modelling `secrets[self.name]` on the context
mapping (`none` is Python's `KeyError`). -/
def lookupKey (ms : List (String × PyValue)) (k : String) : Option PyValue :=
  match ms with
  | [] => none
  | (k', v) :: t => if k' = k then some v else lookupKey t k

/-- Complete outcome of one `Secret.get` call: the returned value or raised
error, the backend interactions in order, and the process state as the call
leaves it (the source only reads, so the embedding returns it explicitly to
make that checkable). -/
structure GetOutcome (ε : Type) where
  result : Except (SecretError ε) PyValue
  events : List SecretEvent
  finalEnv : PrefectEnv ε

/-- Embedding of `Secret.get` (`secrets.py`, lines 29-72), for a secret with
the given `name`:

1. if `prefect.context.get("flow")` is a `Flow` instance, raise `ValueError`
   (modelled `contextViolation`) before touching any backend;
2. if `prefect.config.cloud.use_local_secrets is True`, read
   `prefect.context.get("secrets", {})`, look the name up (`KeyError` becomes
   the not-found `ValueError`), then try `json.loads` on the value and fall
   back to the raw value on `JSONDecodeError` or `TypeError`;
3. otherwise issue one GraphQL query for the name and return its payload
   through `as_nested_dict`, passing any client error through unchanged. -/
def Secret.get {ε : Type} (env : PrefectEnv ε) (name : String) : GetOutcome ε :=
  if isFlowBuilding env.context then
    { result := .error .contextViolation, events := [], finalEnv := env }
  else if env.use_local_secrets then
    let secrets := env.context.secrets.getD []
    match lookupKey secrets name with
    | none =>
      { result := .error (.notFound name)
        events := [.localLookup name]
        finalEnv := env }
    | some value =>
      match pyJsonLoads value with
      | .ok decoded =>
        { result := .ok decoded, events := [.localLookup name], finalEnv := env }
      | .error _ =>
        { result := .ok value, events := [.localLookup name], finalEnv := env }
  else
    match env.clientQuery name with
    | .error e =>
      { result := .error (.clientError e)
        events := [.remoteQuery name]
        finalEnv := env }
    | .ok payload =>
      { result := .ok (as_nested_dict payload)
        events := [.remoteQuery name]
        finalEnv := env }

/-- Classification of a resolution result by backend mode: a missing-secret
error can belong only to the local backend and a client error only to the
remote one; values and the other errors are unconstrained. -/
def modeExclusive {ε : Type} (useLocal : Bool) :
    Except (SecretError ε) PyValue → Prop
  | .error (.notFound _) => useLocal = true
  | .error (.clientError _) => useLocal = false
  | _ => True

/-! ## Helper definitions for the round-trip development -/

/-- Remainders that cannot extend a token: empty input or a separator/closer
character.  Every continuation the encoder produces after a value is of this
shape. -/
def delimHead : List Char → Bool
  | [] => true
  | c :: _ => c = ',' || c = ']' || c = '\x7d'

/-- Remainders that cannot extend a digit run. -/
def noDigHead : List Char → Bool
  | [] => true
  | c :: _ => !isDig c

/-- Value of a least-significant-first digit list. -/
def lsbVal : List Char → Nat
  | [] => 0
  | c :: cs => (c.toNat - '0'.toNat) + 10 * lsbVal cs

/-! ## Character-level facts -/

theorem isDig_toNat {c : Char} (h : isDig c = true) :
    48 ≤ c.toNat ∧ c.toNat ≤ 57 := by
  simpa [isDig] using h

theorem isDig_ne {c x : Char} (h : isDig c = true) (hx : isDig x = false) :
    c ≠ x := by
  intro hEq
  subst hEq
  rw [h] at hx
  cases hx

theorem digit_not_ws {c : Char} (h : isDig c = true) : jsonWs c = false := by
  rcases isDig_toNat h with ⟨h1, h2⟩
  cases hw : jsonWs c
  · rfl
  · exfalso
    simp only [jsonWs, Bool.or_eq_true, decide_eq_true_eq] at hw
    rcases hw with ((rfl | rfl) | rfl) | rfl <;> exact absurd h1 (by decide)

theorem hexCh_digit : ∀ d : Nat, d < 10 →
    isDig (hexCh d) = true ∧ (hexCh d).toNat - '0'.toNat = d ∧
      (d ≠ 0 → hexCh d ≠ '0') := by
  decide

theorem hexVal_hexCh : ∀ d : Nat, d < 16 → hexVal (hexCh d) = some d := by
  decide

/-! ## Whitespace facts -/

theorem pySkipWs_space (cs : List Char) : pySkipWs (' ' :: cs) = pySkipWs cs := by
  simp [pySkipWs, jsonWs]

theorem pySkipWs_noWs {cs : List Char}
    (h : cs = [] ∨ ∃ c t, cs = c :: t ∧ jsonWs c = false) : pySkipWs cs = cs := by
  rcases h with rfl | ⟨c, t, rfl, hc⟩
  · rfl
  · simp [pySkipWs, hc]

theorem parseVal_space (f : Nat) (cs : List Char) :
    parseVal f (' ' :: cs) = parseVal f cs := by
  cases f with
  | zero => rfl
  | succ f => rw [parseVal, parseVal, pySkipWs_space]

theorem parseElts_space (f : Nat) (cs : List Char) :
    parseElts f (' ' :: cs) = parseElts f cs := by
  cases f with
  | zero => rfl
  | succ f => rw [parseElts, parseElts, parseVal_space]

theorem parseMems_space (f : Nat) (cs : List Char) :
    parseMems f (' ' :: cs) = parseMems f cs := by
  cases f with
  | zero => rfl
  | succ f => rw [parseMems, parseMems, pySkipWs_space]

/-! ## String-body round trip -/

theorem mk_data (s : String) : String.mk s.data = s := rfl

theorem pstrBody_escChar (c : Char) (rest : List Char) :
    pstrBody (escChar c ++ rest) = (pstrBody rest).map fun p => (c :: p.1, p.2) := by
  by_cases h1 : c = '\"'
  · subst h1; rfl
  by_cases h2 : c = '\\'
  · subst h2; rfl
  by_cases h3 : c = '\n'
  · subst h3; rfl
  by_cases h4 : c = '\r'
  · subst h4; rfl
  by_cases h5 : c = '\t'
  · subst h5; rfl
  by_cases h6 : c = '\x08'
  · subst h6; rfl
  by_cases h7 : c = '\x0c'
  · subst h7; rfl
  by_cases hc : c.toNat < 0x20
  · have h16 : c.toNat % 16 < 16 := Nat.mod_lt _ (by omega)
    have hdiv : c.toNat / 16 < 16 := by omega
    have hquad : hexQuad '0' '0' (hexCh (c.toNat / 16)) (hexCh (c.toNat % 16))
        = some c.toNat := by
      have hv : hexVal '0' = some 0 := by decide
      simp only [hexQuad, hexVal_hexCh _ hdiv, hexVal_hexCh _ h16, hv]
      show some (((0 * 16 + 0) * 16 + c.toNat / 16) * 16 + c.toNat % 16) = some c.toNat
      congr 1
      omega
    rw [escChar, if_neg h1, if_neg h2, if_neg h3, if_neg h4, if_neg h5, if_neg h6,
      if_neg h7, if_pos hc]
    simp only [List.cons_append, pstrBody, hquad]
    rw [if_neg (by omega), if_neg (by omega)]
    simp only [Char.ofNat_toNat, List.nil_append]
  · rw [escChar, if_neg h1, if_neg h2, if_neg h3, if_neg h4, if_neg h5, if_neg h6,
      if_neg h7, if_neg hc]
    simp only [List.cons_append, List.nil_append]
    rw [pstrBody.eq_def]
    simp [h1, h2, hc]

theorem pstrBody_flatMap (l : List Char) (rest : List Char) :
    pstrBody (l.flatMap escChar ++ '\"' :: rest) = some (l, rest) := by
  induction l with
  | nil => rfl
  | cons c t ih =>
    rw [List.flatMap_cons, List.append_assoc, pstrBody_escChar, ih]
    rfl

theorem pstrBody_strChars (s : String) (x : List Char) :
    pstrBody (s.data.flatMap escChar ++ '\"' :: x) = some (s.data, x) :=
  pstrBody_flatMap s.data x

/-! ## Integer round trip -/

theorem foldl_reverse_lsb (l : List Char) : ∀ a : Nat,
    l.reverse.foldl (fun a c => 10 * a + (c.toNat - '0'.toNat)) a
      = a * 10 ^ l.length + lsbVal l := by
  induction l with
  | nil => intro a; simp [lsbVal]
  | cons c t ih =>
    intro a
    rw [List.reverse_cons, List.foldl_append, ih]
    simp only [List.foldl_cons, List.foldl_nil, lsbVal, List.length_cons]
    ring

theorem natOfDigits_reverse (l : List Char) :
    natOfDigits l.reverse = lsbVal l := by
  rw [natOfDigits, foldl_reverse_lsb]
  simp

theorem natDigsRev_pos (n : Nat) (h : n ≠ 0) :
    natDigsRev n = hexCh (n % 10) :: natDigsRev (n / 10) := by
  cases n with
  | zero => exact absurd rfl h
  | succ m => simp [natDigsRev]

theorem natDigsRev_digits (n : Nat) : ∀ c ∈ natDigsRev n, isDig c = true := by
  induction n using Nat.strong_induction_on with
  | _ n ih =>
    intro c hc
    rcases Nat.eq_zero_or_pos n with rfl | hpos
    · simp [natDigsRev] at hc
    · rw [natDigsRev_pos n (by omega)] at hc
      rcases List.mem_cons.mp hc with rfl | hc'
      · exact (hexCh_digit _ (Nat.mod_lt _ (by omega))).1
      · exact ih (n / 10) (Nat.div_lt_self hpos (by omega)) c hc'

theorem lsbVal_natDigsRev (n : Nat) : lsbVal (natDigsRev n) = n := by
  induction n using Nat.strong_induction_on with
  | _ n ih =>
    rcases Nat.eq_zero_or_pos n with rfl | hpos
    · simp [natDigsRev, lsbVal]
    · rw [natDigsRev_pos n (by omega)]
      simp only [lsbVal]
      rw [ih (n / 10) (Nat.div_lt_self hpos (by omega)),
        (hexCh_digit (n % 10) (Nat.mod_lt _ (by omega))).2.1]
      omega

theorem natDigsRev_msb (n : Nat) (h : n ≠ 0) :
    ∃ c t, (natDigsRev n).reverse = c :: t ∧ isDig c = true ∧ c ≠ '0' := by
  induction n using Nat.strong_induction_on with
  | _ n ih =>
    rw [natDigsRev_pos n h, List.reverse_cons]
    rcases Nat.eq_zero_or_pos (n / 10) with hz | hpos
    · rw [hz]
      have hm : n % 10 ≠ 0 := by omega
      refine ⟨hexCh (n % 10), [], ?_, (hexCh_digit _ (by omega)).1,
        (hexCh_digit _ (by omega)).2.2 hm⟩
      simp [natDigsRev]
    · obtain ⟨c, t, heq, hdig, hne⟩ :=
        ih (n / 10) (Nat.div_lt_self (by omega) (by omega)) (by omega)
      exact ⟨c, t ++ [hexCh (n % 10)], by rw [heq]; rfl, hdig, hne⟩

theorem digitSpan_stop {cs : List Char} (h : noDigHead cs = true) :
    digitSpan cs = ([], cs) := by
  cases cs with
  | nil => rfl
  | cons c t =>
    simp only [noDigHead, Bool.not_eq_true'] at h
    simp [digitSpan, h]

theorem digitSpan_run (ds : List Char) (hds : ∀ c ∈ ds, isDig c = true)
    {rest : List Char} (hrest : noDigHead rest = true) :
    digitSpan (ds ++ rest) = (ds, rest) := by
  induction ds with
  | nil => simpa using digitSpan_stop hrest
  | cons c t ih =>
    have hc : isDig c = true := hds c (by simp)
    have ht := ih fun x hx => hds x (by simp [hx])
    simp [digitSpan, hc, ht]

theorem digit_ne_chars {c : Char} (h : isDig c = true) :
    c ≠ '-' ∧ c ≠ ']' ∧ c ≠ '\x7d' ∧ c ≠ ',' ∧ c ≠ 'n' ∧ c ≠ 't' ∧ c ≠ 'f'
      ∧ c ≠ '\"' ∧ c ≠ '[' ∧ c ≠ '\x7b' := by
  refine ⟨?_, ?_, ?_, ?_, ?_, ?_, ?_, ?_, ?_, ?_⟩ <;>
    (intro hEq; subst hEq; exact absurd h (by decide))

theorem parseNatTok_natChars (n : Nat) {rest : List Char}
    (hrest : noDigHead rest = true) :
    parseNatTok (natChars n ++ rest) = some (n, rest) := by
  rcases Nat.eq_zero_or_pos n with rfl | hpos
  · simp [natChars, parseNatTok]
  · obtain ⟨c, t, heq, hdig, hne⟩ := natDigsRev_msb n (by omega)
    have hts : ∀ x ∈ t, isDig x = true := by
      intro x hx
      refine natDigsRev_digits n x ?_
      have : x ∈ (natDigsRev n).reverse := by rw [heq]; simp [hx]
      simpa using this
    have hspan := digitSpan_run t hts hrest
    rw [natChars, if_neg (by omega), heq]
    simp only [List.cons_append, parseNatTok, if_neg hne, hdig, if_pos rfl]
    rw [hspan]
    have hval : natOfDigits (c :: t) = n := by
      rw [show c :: t = (natDigsRev n).reverse from heq.symm, natOfDigits_reverse,
        lsbVal_natDigsRev]
    simp only [if_true]
    rw [hval]

theorem parseIntTok_intChars (i : Int) {rest : List Char}
    (hrest : noDigHead rest = true) :
    parseIntTok (intChars i ++ rest) = some (i, rest) := by
  by_cases hneg : i < 0
  · rw [intChars, if_pos hneg]
    simp only [List.cons_append, parseIntTok, if_pos rfl,
      parseNatTok_natChars i.natAbs hrest]
    simp only [if_true]
    show some (-((i.natAbs : Nat) : Int), rest) = some (i, rest)
    rw [show -((i.natAbs : Nat) : Int) = i by omega]
  · rw [intChars, if_neg hneg]
    obtain ⟨c, t, heq, hdig⟩ : ∃ c t, natChars i.natAbs = c :: t ∧ isDig c = true := by
      rcases Nat.eq_zero_or_pos i.natAbs with hz | hpos
      · exact ⟨'0', [], by rw [natChars, if_pos hz], by decide⟩
      · obtain ⟨c, t, heq, hdig, _⟩ := natDigsRev_msb i.natAbs (by omega)
        exact ⟨c, t, by rw [natChars, if_neg (by omega)]; exact heq, hdig⟩
    rw [heq, List.cons_append, parseIntTok, if_neg (digit_ne_chars hdig).1,
      ← List.cons_append, ← heq, parseNatTok_natChars i.natAbs hrest]
    show some (((i.natAbs : Nat) : Int), rest) = some (i, rest)
    rw [show ((i.natAbs : Nat) : Int) = i by omega]

theorem delim_noDig {r : List Char} (h : delimHead r = true) :
    noDigHead r = true := by
  cases r with
  | nil => rfl
  | cons c t =>
    simp only [delimHead, Bool.or_eq_true, decide_eq_true_eq] at h
    have hc : isDig c = false := by
      rcases h with (rfl | rfl) | rfl <;> decide
    simp [noDigHead, hc]

theorem delim_noFloat {r : List Char} (h : delimHead r = true) :
    floatCont r = false := by
  cases r with
  | nil => rfl
  | cons c t =>
    simp only [delimHead, Bool.or_eq_true, decide_eq_true_eq] at h
    rcases h with (rfl | rfl) | rfl <;> rfl

theorem parseNum_intChars (i : Int) {rest : List Char}
    (hrest : delimHead rest = true) :
    parseNum (intChars i ++ rest) = some (.int i, rest) := by
  rw [parseNum, parseIntTok_intChars i (delim_noDig hrest)]
  simp [delim_noFloat hrest]

/-! ## Duplicate-free member lists pass through `pyDictOf` unchanged -/

theorem hasKey_append (ms ns : List (String × PyValue)) (k : String) :
    hasKey (ms ++ ns) k = (hasKey ms k || hasKey ns k) := by
  simp [hasKey, List.any_append]

theorem dictPut_absent (ms : List (String × PyValue)) (k : String) (v : PyValue)
    (h : hasKey ms k = false) : dictPut ms k v = ms ++ [(k, v)] := by
  induction ms with
  | nil => rfl
  | cons p t ih =>
    obtain ⟨k', v'⟩ := p
    simp only [hasKey, List.any_cons, Bool.or_eq_false_iff,
      decide_eq_false_iff_not] at h
    rw [dictPut, if_neg h.1, ih h.2]
    rfl

theorem dictFold_distinct (pairs : List (String × PyValue)) : ∀ acc,
    (∀ p ∈ pairs, hasKey acc p.1 = false) →
    keysDistinct (pairs.map Prod.fst) = true →
    pairs.foldl (fun a p => dictPut a p.1 p.2) acc = acc ++ pairs := by
  induction pairs with
  | nil => intro acc _ _; simp
  | cons p ps ih =>
    intro acc hacc hdis
    simp only [List.map_cons, keysDistinct, Bool.and_eq_true, List.all_eq_true,
      bne_iff_ne] at hdis
    have hstep : dictPut acc p.1 p.2 = acc ++ [p] := by
      rw [dictPut_absent acc p.1 p.2 (hacc p (by simp))]
    have hacc' : ∀ q ∈ ps, hasKey (acc ++ [p]) q.1 = false := by
      intro q hq
      rw [hasKey_append, hacc q (by simp [hq]), Bool.false_or]
      have hne : p.1 ≠ q.1 := by
        intro hEq
        exact hdis.1 q.1 (by exact List.mem_map_of_mem Prod.fst hq) (hEq ▸ rfl)
      simp [hasKey, hne]
    rw [List.foldl_cons, hstep, ih (acc ++ [p]) hacc' hdis.2]
    simp

theorem pyDictOf_distinct (pairs : List (String × PyValue))
    (h : keysDistinct (pairs.map Prod.fst) = true) : pyDictOf pairs = pairs := by
  rw [pyDictOf, dictFold_distinct pairs [] (fun p _ => rfl) h]
  rfl

/-! ## Shapes of encoder output -/

theorem strChars_shape (s : String) :
    strChars s = '\"' :: (s.data.flatMap escChar ++ ['\"']) := rfl

theorem intChars_head (i : Int) :
    ∃ c t, intChars i = c :: t ∧ (c = '-' ∨ isDig c = true) := by
  by_cases hneg : i < 0
  · exact ⟨'-', natChars i.natAbs, by rw [intChars, if_pos hneg], Or.inl rfl⟩
  · rw [intChars, if_neg hneg]
    rcases Nat.eq_zero_or_pos i.natAbs with hz | hpos
    · exact ⟨'0', [], by rw [natChars, if_pos hz], Or.inr (by decide)⟩
    · obtain ⟨c, t, heq, hdig, _⟩ := natDigsRev_msb i.natAbs (by omega)
      exact ⟨c, t, by rw [natChars, if_neg (by omega)]; exact heq, Or.inr hdig⟩

theorem dumpChars_head (v : PyValue) (h : pyWF v = true) :
    ∃ c t, dumpChars v = c :: t ∧ jsonWs c = false ∧ c ≠ ']' ∧ c ≠ '\x7d' := by
  cases v with
  | bytes s => simp [pyWF] at h
  | null => exact ⟨'n', _, by rw [dumpChars], by decide, by decide, by decide⟩
  | bool b =>
    cases b with
    | true => exact ⟨'t', _, by rw [dumpChars], by decide, by decide, by decide⟩
    | false => exact ⟨'f', _, by rw [dumpChars], by decide, by decide, by decide⟩
  | int i =>
    obtain ⟨c, t, heq, hc⟩ := intChars_head i
    refine ⟨c, t, by rw [dumpChars]; exact heq, ?_, ?_, ?_⟩
    · rcases hc with rfl | hdig
      · decide
      · exact digit_not_ws hdig
    · rcases hc with rfl | hdig
      · decide
      · exact (digit_ne_chars hdig).2.1
    · rcases hc with rfl | hdig
      · decide
      · exact (digit_ne_chars hdig).2.2.1
  | str s => exact ⟨'\"', _, by rw [dumpChars, strChars_shape], by decide, by decide, by decide⟩
  | list xs => exact ⟨'[', _, by rw [dumpChars], by decide, by decide, by decide⟩
  | dict ms => exact ⟨'\x7b', _, by rw [dumpChars], by decide, by decide, by decide⟩

theorem dumpChars_len_pos (v : PyValue) (h : pyWF v = true) :
    1 ≤ (dumpChars v).length := by
  obtain ⟨c, t, heq, -, -, -⟩ := dumpChars_head v h
  rw [heq]
  simp

theorem dumpEltsRest_len_pos (xs : List PyValue) : 1 ≤ (dumpEltsRest xs).length := by
  cases xs with
  | nil => rw [dumpEltsRest]; simp
  | cons x t => rw [dumpEltsRest]; simp

theorem dumpMemsRest_len_pos (ms : List (String × PyValue)) :
    1 ≤ (dumpMemsRest ms).length := by
  cases ms with
  | nil => rw [dumpMemsRest]; simp
  | cons m t =>
    obtain ⟨k, v⟩ := m
    rw [dumpMemsRest]
    simp

theorem dumpEltsRest_cons (x : PyValue) (xs : List PyValue) :
    dumpEltsRest (x :: xs) = ',' :: ' ' :: dumpElts (x :: xs) := by
  rw [dumpEltsRest, dumpElts]

theorem dumpMemsRest_cons (m : String × PyValue) (ms : List (String × PyValue)) :
    dumpMemsRest (m :: ms) = ',' :: ' ' :: dumpMems (m :: ms) := by
  obtain ⟨k, v⟩ := m
  rw [dumpMemsRest, dumpMems]

theorem delimHead_eltsRest (xs : List PyValue) (rest : List Char) :
    delimHead (dumpEltsRest xs ++ rest) = true := by
  cases xs with
  | nil => rw [dumpEltsRest]; rfl
  | cons x t => rw [dumpEltsRest_cons]; rfl

theorem delimHead_memsRest (ms : List (String × PyValue)) (rest : List Char) :
    delimHead (dumpMemsRest ms ++ rest) = true := by
  cases ms with
  | nil => rw [dumpMemsRest]; rfl
  | cons m t => rw [dumpMemsRest_cons]; rfl

/-! ## One-step views of the parser on each kind of input -/

theorem pvNull (f : Nat) (rest : List Char) :
    parseVal (f + 1) ('n' :: 'u' :: 'l' :: 'l' :: rest) = some (.null, rest) := rfl

theorem pvTrue (f : Nat) (rest : List Char) :
    parseVal (f + 1) ('t' :: 'r' :: 'u' :: 'e' :: rest) = some (.bool true, rest) := rfl

theorem pvFalse (f : Nat) (rest : List Char) :
    parseVal (f + 1) ('f' :: 'a' :: 'l' :: 's' :: 'e' :: rest)
      = some (.bool false, rest) := rfl

theorem pvStr (f : Nat) (r : List Char) :
    parseVal (f + 1) ('\"' :: r)
      = (pstrBody r).map fun p => (.str (String.mk p.1), p.2) := rfl

theorem pvList (f : Nat) (r : List Char) :
    parseVal (f + 1) ('[' :: r)
      = (match pySkipWs r with
         | [] => none
         | c :: r2 =>
           if c = ']' then some (.list [], r2)
           else (parseElts f (c :: r2)).map fun p => (.list p.1, p.2)) := rfl

theorem pvDict (f : Nat) (r : List Char) :
    parseVal (f + 1) ('\x7b' :: r)
      = (match pySkipWs r with
         | [] => none
         | c :: r2 =>
           if c = '\x7d' then some (.dict [], r2)
           else (parseMems f (c :: r2)).map fun p => (.dict (pyDictOf p.1), p.2)) := rfl

theorem pvNum (f : Nat) {c : Char} (t : List Char)
    (hws : jsonWs c = false) (hn : c ≠ 'n') (ht : c ≠ 't') (hf : c ≠ 'f')
    (hq : c ≠ '\"') (hk : c ≠ '[') (hb : c ≠ '\x7b') :
    parseVal (f + 1) (c :: t) = parseNum (c :: t) := by
  rw [parseVal, pySkipWs_noWs (Or.inr ⟨c, t, rfl, hws⟩)]
  simp [hn, ht, hf, hq, hk, hb]

theorem pvListCons (f : Nat) (c : Char) (t : List Char)
    (hws : jsonWs c = false) (hrb : c ≠ ']') :
    parseVal (f + 1) ('[' :: (c :: t))
      = (parseElts f (c :: t)).map fun p => (.list p.1, p.2) := by
  rw [pvList, pySkipWs_noWs (Or.inr ⟨c, t, rfl, hws⟩)]
  simp [hrb]

theorem pvDictCons (f : Nat) (c : Char) (t : List Char)
    (hws : jsonWs c = false) (hrb : c ≠ '\x7d') :
    parseVal (f + 1) ('\x7b' :: (c :: t))
      = (parseMems f (c :: t)).map fun p => (.dict (pyDictOf p.1), p.2) := by
  rw [pvDict, pySkipWs_noWs (Or.inr ⟨c, t, rfl, hws⟩)]
  simp [hrb]

theorem parseElts_step (f : Nat) (cs : List Char) :
    parseElts (f + 1) cs
      = (parseVal f cs).bind fun p =>
          match pySkipWs p.2 with
          | ',' :: r2 => (parseElts f r2).map fun q => (p.1 :: q.1, q.2)
          | ']' :: r2 => some ([p.1], r2)
          | _ => none := rfl

theorem parseMems_step (f : Nat) (cs : List Char) :
    parseMems (f + 1) cs
      = (match pySkipWs cs with
         | '\"' :: r =>
           (pstrBody r).bind fun kp =>
             match pySkipWs kp.2 with
             | ':' :: r2 =>
               (parseVal f r2).bind fun vp =>
                 match pySkipWs vp.2 with
                 | ',' :: r3 => (parseMems f r3).map fun q =>
                     ((String.mk kp.1, vp.1) :: q.1, q.2)
                 | '\x7d' :: r3 => some ([(String.mk kp.1, vp.1)], r3)
                 | _ => none
             | _ => none
         | _ => none) := rfl

/-! ## The round trip: parsing rendered output recovers the value -/

mutual

theorem rtVal : ∀ (v : PyValue) (f : Nat) (rest : List Char),
    pyWF v = true → (dumpChars v).length < f → delimHead rest = true →
    parseVal f (dumpChars v ++ rest) = some (v, rest)
  | .null, f, rest, _, hfl, _ => by
    cases f with
    | zero => exact absurd hfl (Nat.not_lt_zero _)
    | succ f =>
      rw [dumpChars]
      exact pvNull f rest
  | .bool true, f, rest, _, hfl, _ => by
    cases f with
    | zero => exact absurd hfl (Nat.not_lt_zero _)
    | succ f =>
      rw [dumpChars]
      exact pvTrue f rest
  | .bool false, f, rest, _, hfl, _ => by
    cases f with
    | zero => exact absurd hfl (Nat.not_lt_zero _)
    | succ f =>
      rw [dumpChars]
      exact pvFalse f rest
  | .int i, f, rest, _, hfl, hrest => by
    cases f with
    | zero => exact absurd hfl (Nat.not_lt_zero _)
    | succ f =>
      obtain ⟨c, t, heq, hc⟩ := intChars_head i
      have hws : jsonWs c = false := by
        rcases hc with rfl | hd
        · decide
        · exact digit_not_ws hd
      obtain ⟨hn, ht, hf2, hq, hk, hb⟩ :
          c ≠ 'n' ∧ c ≠ 't' ∧ c ≠ 'f' ∧ c ≠ '\"' ∧ c ≠ '[' ∧ c ≠ '\x7b' := by
        rcases hc with rfl | hd
        · exact ⟨by decide, by decide, by decide, by decide, by decide, by decide⟩
        · obtain ⟨-, -, -, -, h5, h6, h7, h8, h9, h10⟩ := digit_ne_chars hd
          exact ⟨h5, h6, h7, h8, h9, h10⟩
      rw [dumpChars, heq, List.cons_append,
        pvNum f (t ++ rest) hws hn ht hf2 hq hk hb,
        ← List.cons_append, ← heq, parseNum_intChars i hrest]
  | .str s, f, rest, _, hfl, _ => by
    cases f with
    | zero => exact absurd hfl (Nat.not_lt_zero _)
    | succ f =>
      have hsh : dumpChars (.str s) ++ rest
          = '\"' :: (s.data.flatMap escChar ++ '\"' :: rest) := by
        rw [dumpChars, strChars_shape]
        simp
      rw [hsh, pvStr, pstrBody_strChars]
      rfl
  | .bytes _, _, _, hwf, _, _ => by simp [pyWF] at hwf
  | .list [], f, rest, _, hfl, _ => by
    cases f with
    | zero => exact absurd hfl (Nat.not_lt_zero _)
    | succ f =>
      rw [dumpChars, dumpElts]
      rfl
  | .list (x :: xs), f, rest, hwf, hfl, _ => by
    cases f with
    | zero => exact absurd hfl (Nat.not_lt_zero _)
    | succ f =>
      have hwl : pyWFList (x :: xs) = true := by simpa [pyWF] using hwf
      obtain ⟨hwx, -⟩ : pyWF x = true ∧ pyWFList xs = true := by
        simpa [pyWFList] using hwl
      obtain ⟨c, t, hhd, hws, hrb, -⟩ := dumpChars_head x hwx
      have hsh : dumpElts (x :: xs) ++ rest
          = c :: (t ++ (dumpEltsRest xs ++ rest)) := by
        rw [dumpElts, hhd]
        simp
      have hlen : (dumpElts (x :: xs)).length < f := by
        rw [dumpChars] at hfl
        simp only [List.length_cons] at hfl
        omega
      rw [dumpChars, List.cons_append, hsh, pvListCons f c _ hws hrb, ← hsh,
        rtElts x xs f rest hwl hlen]
      rfl
  | .dict [], f, rest, _, hfl, _ => by
    cases f with
    | zero => exact absurd hfl (Nat.not_lt_zero _)
    | succ f =>
      rw [dumpChars, dumpMems]
      rfl
  | .dict (m :: ms), f, rest, hwf, hfl, _ => by
    cases f with
    | zero => exact absurd hfl (Nat.not_lt_zero _)
    | succ f =>
      obtain ⟨hkd, hwm⟩ :
          keysDistinct ((m :: ms).map Prod.fst) = true ∧ pyWFMems (m :: ms) = true := by
        simpa [pyWF] using hwf
      have hlen : (dumpMems (m :: ms)).length < f := by
        rw [dumpChars] at hfl
        simp only [List.length_cons] at hfl
        omega
      obtain ⟨t2, ht2⟩ : ∃ t2, dumpMems (m :: ms) = '\"' :: t2 := by
        obtain ⟨k, v⟩ := m
        rw [dumpMems, strChars_shape]
        exact ⟨_, rfl⟩
      rw [dumpChars, List.cons_append, ht2, List.cons_append,
        pvDictCons f '\"' _ (by decide) (by decide), ← List.cons_append, ← ht2,
        rtMems m ms f rest hwm hlen]
      simp only [Option.map_some']
      rw [pyDictOf_distinct _ hkd]
  termination_by v _ _ _ _ _ => sizeOf v

theorem rtElts : ∀ (x : PyValue) (xs : List PyValue) (f : Nat) (rest : List Char),
    pyWFList (x :: xs) = true → (dumpElts (x :: xs)).length < f →
    parseElts f (dumpElts (x :: xs) ++ rest) = some (x :: xs, rest)
  | x, [], f, rest, hwf, hfl => by
    cases f with
    | zero => exact absurd hfl (Nat.not_lt_zero _)
    | succ f =>
      have hwx : pyWF x = true := by simpa [pyWFList] using hwf
      have hflx : (dumpChars x).length < f := by
        rw [dumpElts, dumpEltsRest] at hfl
        simp only [List.length_append, List.length_cons, List.length_nil] at hfl
        omega
      have hsh : dumpElts (x :: []) ++ rest = dumpChars x ++ (']' :: rest) := by
        rw [dumpElts, dumpEltsRest]
        simp
      rw [hsh, parseElts_step, rtVal x f (']' :: rest) hwx hflx rfl]
      rfl
  | x, y :: ys, f, rest, hwf, hfl => by
    cases f with
    | zero => exact absurd hfl (Nat.not_lt_zero _)
    | succ f =>
      obtain ⟨hwx, hwt⟩ : pyWF x = true ∧ pyWFList (y :: ys) = true := by
        simpa [pyWFList] using hwf
      have hx1 := dumpChars_len_pos x hwx
      have htl : (dumpElts (y :: ys)).length < f := by
        rw [dumpElts, dumpEltsRest_cons] at hfl
        simp only [List.length_append, List.length_cons] at hfl
        omega
      have hflx : (dumpChars x).length < f := by
        rw [dumpElts] at hfl
        have := dumpEltsRest_len_pos (y :: ys)
        simp only [List.length_append] at hfl
        omega
      have hsh : dumpElts (x :: y :: ys) ++ rest
          = dumpChars x ++ (',' :: ' ' :: (dumpElts (y :: ys) ++ rest)) := by
        rw [dumpElts, dumpEltsRest_cons]
        simp
      rw [hsh, parseElts_step,
        rtVal x f (',' :: ' ' :: (dumpElts (y :: ys) ++ rest)) hwx hflx rfl]
      show (parseElts f (' ' :: (dumpElts (y :: ys) ++ rest))).map
          (fun q => (x :: q.1, q.2)) = some (x :: y :: ys, rest)
      rw [parseElts_space, rtElts y ys f rest hwt htl]
      rfl
  termination_by x xs _ _ _ _ => sizeOf x + sizeOf xs

theorem rtMems : ∀ (m : String × PyValue) (ms : List (String × PyValue))
    (f : Nat) (rest : List Char),
    pyWFMems (m :: ms) = true → (dumpMems (m :: ms)).length < f →
    parseMems f (dumpMems (m :: ms) ++ rest) = some (m :: ms, rest)
  | (k, v), [], f, rest, hwf, hfl => by
    cases f with
    | zero => exact absurd hfl (Nat.not_lt_zero _)
    | succ f =>
      have hwv : pyWF v = true := by simpa [pyWFMems] using hwf
      have hflv : (dumpChars v).length < f := by
        rw [dumpMems, strChars_shape, dumpMemsRest] at hfl
        simp only [List.length_append, List.length_cons, List.length_nil] at hfl
        omega
      have hsh : dumpMems ((k, v) :: []) ++ rest
          = '\"' :: ((k.data.flatMap escChar) ++ '\"' ::
              (':' :: ' ' :: (dumpChars v ++ ('\x7d' :: rest)))) := by
        rw [dumpMems, strChars_shape, dumpMemsRest]
        simp
      rw [hsh, parseMems_step,
        pySkipWs_noWs (Or.inr ⟨'\"', _, rfl, by decide⟩)]
      simp only [pstrBody_strChars, Option.some_bind]
      rw [pySkipWs_noWs (Or.inr ⟨':', _, rfl, by decide⟩)]
      simp only [parseVal_space,
        rtVal v f ('\x7d' :: rest) hwv hflv rfl, Option.some_bind]
      rw [mk_data]
      rfl
  | (k, v), m2 :: ms, f, rest, hwf, hfl => by
    cases f with
    | zero => exact absurd hfl (Nat.not_lt_zero _)
    | succ f =>
      obtain ⟨hwv, hwm⟩ : pyWF v = true ∧ pyWFMems (m2 :: ms) = true := by
        simpa [pyWFMems] using hwf
      have hv1 := dumpChars_len_pos v hwv
      have hflv : (dumpChars v).length < f := by
        rw [dumpMems, strChars_shape] at hfl
        have := dumpMemsRest_len_pos (m2 :: ms)
        simp only [List.length_append, List.length_cons] at hfl
        omega
      have htl : (dumpMems (m2 :: ms)).length < f := by
        rw [dumpMems, strChars_shape, dumpMemsRest_cons] at hfl
        simp only [List.length_append, List.length_cons] at hfl
        omega
      have hsh : dumpMems ((k, v) :: m2 :: ms) ++ rest
          = '\"' :: ((k.data.flatMap escChar) ++ '\"' ::
              (':' :: ' ' :: (dumpChars v ++
                (',' :: ' ' :: (dumpMems (m2 :: ms) ++ rest))))) := by
        rw [dumpMems, strChars_shape, dumpMemsRest_cons]
        simp
      rw [hsh, parseMems_step,
        pySkipWs_noWs (Or.inr ⟨'\"', _, rfl, by decide⟩)]
      simp only [pstrBody_strChars, Option.some_bind]
      rw [pySkipWs_noWs (Or.inr ⟨':', _, rfl, by decide⟩)]
      simp only [parseVal_space,
        rtVal v f (',' :: ' ' :: (dumpMems (m2 :: ms) ++ rest)) hwv hflv rfl,
        Option.some_bind]
      show Option.map (fun q => ((String.mk k.data, v) :: q.1, q.2))
          (parseMems f (' ' :: (dumpMems (m2 :: ms) ++ rest)))
        = some ((k, v) :: m2 :: ms, rest)
      rw [parseMems_space, rtMems m2 ms f rest hwm htl, Option.map_some', mk_data]
  termination_by m ms _ _ _ _ => sizeOf m + sizeOf ms

end

theorem data_mk (l : List Char) : (String.mk l).data = l := rfl

/-- Codec round trip: `json.loads` recovers every well-formed Python value
from its `json.dumps` rendering. -/
theorem json_roundtrip (v : PyValue) (h : pyWF v = true) :
    json_loads (json_dumps v) = some v := by
  have hv := rtVal v ((dumpChars v).length + 1) [] h (by omega) rfl
  rw [List.append_nil] at hv
  rw [json_dumps, json_loads, data_mk, hv]
  rfl

/-- The in-resolver decode call succeeds on any stored `json.dumps` image. -/
theorem pyJsonLoads_dumps (v : PyValue) (h : pyWF v = true) :
    pyJsonLoads (.str (json_dumps v)) = .ok v := by
  simp only [pyJsonLoads, json_roundtrip v h]

/-! ## Verified claims about `Secret.get` -/

/-- C1: whenever the execution context holds a `Flow` instance under `"flow"`
(definition-building phase), `Secret.get` fails with the context-violation
`ValueError` in every backend mode, with no local lookup and no remote query
(empty event list) and the state untouched. -/
theorem secret_get_flow_guard {ε : Type} (env : PrefectEnv ε) (name : String)
    (h : isFlowBuilding env.context = true) :
    Secret.get env name = ⟨.error .contextViolation, [], env⟩ := by
  rw [Secret.get, if_pos (by simp [h])]

theorem secret_get_flow_guard_witness :
    isFlowBuilding (PrefectContext.mk (some .flowInstance)
        (some [("db_pw", PyValue.str "x")])) = true
    ∧ Secret.get (ε := Unit)
        { context := ⟨some .flowInstance, some [("db_pw", .str "x")]⟩,
          use_local_secrets := true, clientQuery := fun _ => .ok .null } "db_pw"
        = ⟨.error .contextViolation, [],
           { context := ⟨some .flowInstance, some [("db_pw", .str "x")]⟩,
             use_local_secrets := true, clientQuery := fun _ => .ok .null }⟩ :=
  ⟨rfl, secret_get_flow_guard _ "db_pw" rfl⟩

/-- C2: in local mode, a name with no entry in the local mapping resolves to
the not-found `ValueError` carrying exactly that name; no value is returned. -/
theorem secret_get_local_missing {ε : Type} (env : PrefectEnv ε) (name : String)
    (hg : isFlowBuilding env.context = false)
    (hl : env.use_local_secrets = true)
    (hm : lookupKey (env.context.secrets.getD []) name = none) :
    Secret.get env name = ⟨.error (.notFound name), [.localLookup name], env⟩ := by
  simp [Secret.get, hg, hl, hm]

theorem secret_get_local_missing_witness :
    Secret.get (ε := Unit)
      { context := ⟨none, some [("other", .str "x")]⟩,
        use_local_secrets := true, clientQuery := fun _ => .ok .null } "missing"
      = ⟨.error (.notFound "missing"), [.localLookup "missing"],
         { context := ⟨none, some [("other", .str "x")]⟩,
           use_local_secrets := true, clientQuery := fun _ => .ok .null }⟩ :=
  secret_get_local_missing _ "missing" rfl rfl rfl

/-- C3: in local mode, a name stored as the `json.dumps` image of a
well-formed value `v` resolves to a value equal to `v` — the
encode-store-resolve round trip.  In particular `"\"s3cr3t\""` resolves to the
string `s3cr3t` and `"true"` to the boolean `true` (see the witness). -/
theorem secret_get_local_roundtrip {ε : Type} (env : PrefectEnv ε) (name : String)
    (v : PyValue)
    (hg : isFlowBuilding env.context = false)
    (hl : env.use_local_secrets = true)
    (hwf : pyWF v = true)
    (hm : lookupKey (env.context.secrets.getD []) name
        = some (.str (json_dumps v))) :
    (Secret.get env name).result = .ok v := by
  simp [Secret.get, hg, hl, hm, pyJsonLoads_dumps v hwf]

theorem secret_get_local_roundtrip_witness :
    (Secret.get (ε := Unit)
      { context := ⟨none, some [("db_pw", .str (json_dumps (.str "s3cr3t")))]⟩,
        use_local_secrets := true, clientQuery := fun _ => .ok .null }
      "db_pw").result = .ok (.str "s3cr3t")
    ∧ (Secret.get (ε := Unit)
      { context := ⟨none, some [("flag", .str (json_dumps (.bool true)))]⟩,
        use_local_secrets := true, clientQuery := fun _ => .ok .null }
      "flag").result = .ok (.bool true)
    ∧ json_dumps (.str "s3cr3t") = "\"s3cr3t\""
    ∧ json_dumps (.bool true) = "true" :=
  ⟨secret_get_local_roundtrip _ "db_pw" (.str "s3cr3t") rfl rfl (by simp [pyWF]) rfl,
   secret_get_local_roundtrip _ "flag" (.bool true) rfl rfl (by simp [pyWF]) rfl,
   by simp [json_dumps, dumpChars, strChars, escChar],
   by simp [json_dumps, dumpChars]⟩

/-- C4: in local mode, when `json.loads` fails on the stored value — for any
reason the source catches, a malformed document or a non-`str` value — the raw
value is returned unchanged and no error surfaces. -/
theorem secret_get_decode_fallback {ε : Type} (env : PrefectEnv ε) (name : String)
    (raw : PyValue) (e : JsonFail)
    (hg : isFlowBuilding env.context = false)
    (hl : env.use_local_secrets = true)
    (hm : lookupKey (env.context.secrets.getD []) name = some raw)
    (hd : pyJsonLoads raw = .error e) :
    (Secret.get env name).result = .ok raw := by
  simp [Secret.get, hg, hl, hm, hd]

theorem secret_get_decode_fallback_witness :
    (Secret.get (ε := Unit)
      { context := ⟨none, some [("raw", .str "not-json\x7b")]⟩,
        use_local_secrets := true, clientQuery := fun _ => .ok .null }
      "raw").result = .ok (.str "not-json\x7b") :=
  secret_get_decode_fallback _ "raw" (.str "not-json\x7b") .decodeError rfl rfl rfl rfl

/-- C5: in remote mode, one `Secret.get` call issues exactly one client query,
for the requested name, and a client error is surfaced as `ClientError`
wrapping that very error, never reinterpreted, retried, or suppressed. -/
theorem secret_get_remote {ε : Type} (env : PrefectEnv ε) (name : String)
    (hg : isFlowBuilding env.context = false)
    (hr : env.use_local_secrets = false) :
    (Secret.get env name).events = [.remoteQuery name]
    ∧ ∀ e : ε, env.clientQuery name = .error e →
        (Secret.get env name).result = .error (.clientError e) := by
  constructor
  · cases hq : env.clientQuery name <;> simp [Secret.get, hg, hr, hq]
  · intro e he
    simp [Secret.get, hg, hr, he]

theorem secret_get_remote_witness :
    (Secret.get (ε := Unit)
      { context := ⟨none, none⟩, use_local_secrets := false,
        clientQuery := fun _ => .error () } "token").events
      = [.remoteQuery "token"]
    ∧ (Secret.get (ε := Unit)
      { context := ⟨none, none⟩, use_local_secrets := false,
        clientQuery := fun _ => .error () } "token").result
      = .error (.clientError ()) :=
  ⟨(secret_get_remote (ε := Unit)
      { context := ⟨none, none⟩, use_local_secrets := false,
        clientQuery := fun _ => .error () } "token" rfl rfl).1,
   (secret_get_remote (ε := Unit)
      { context := ⟨none, none⟩, use_local_secrets := false,
        clientQuery := fun _ => .error () } "token" rfl rfl).2 () rfl⟩

/-- C6: error kinds are exclusive to their backend mode — a not-found error
can only arise with `use_local_secrets = true` and a client error only with
`use_local_secrets = false`. -/
theorem secret_get_error_modes {ε : Type} (env : PrefectEnv ε) (name : String) :
    modeExclusive env.use_local_secrets (Secret.get env name).result := by
  rw [Secret.get]
  by_cases hg : isFlowBuilding env.context = true
  · simp [hg, modeExclusive]
  · cases hl : env.use_local_secrets with
    | true =>
      cases hlk : lookupKey (env.context.secrets.getD []) name with
      | none => simp [hg, hl, hlk, modeExclusive]
      | some value =>
        cases hd : pyJsonLoads value <;> simp [hg, hl, hlk, hd, modeExclusive]
    | false =>
      cases hq : env.clientQuery name with
      | error e => simp [hg, hl, hq, modeExclusive]
      | ok payload => simp [hg, hl, hq, modeExclusive]

/-- C7: in local mode with no `"secrets"` entry in the context at all,
resolution behaves exactly as with an empty mapping: every name fails with
the not-found error. -/
theorem secret_get_no_mapping {ε : Type} (env : PrefectEnv ε) (name : String)
    (hg : isFlowBuilding env.context = false)
    (hl : env.use_local_secrets = true)
    (hs : env.context.secrets = none) :
    (Secret.get env name).result = .error (.notFound name)
    ∧ (Secret.get env name).result
        = (Secret.get { env with
            context := { env.context with secrets := some [] } } name).result
    ∧ (Secret.get env name).events
        = (Secret.get { env with
            context := { env.context with secrets := some [] } } name).events := by
  have hg' : isFlowBuilding { env.context with secrets := some ([] : List (String × PyValue)) } = false := by
    rw [isFlowBuilding] at hg ⊢
    exact hg
  refine ⟨?_, ?_, ?_⟩ <;>
    simp [Secret.get, hg, hg', hl, hs, lookupKey]

theorem secret_get_no_mapping_witness :
    (Secret.get (ε := Unit)
      { context := ⟨none, none⟩, use_local_secrets := true,
        clientQuery := fun _ => .ok .null } "anything").result
      = .error (.notFound "anything") :=
  (secret_get_no_mapping (ε := Unit)
    { context := ⟨none, none⟩, use_local_secrets := true,
      clientQuery := fun _ => .ok .null } "anything" rfl rfl rfl).1

/-- C8: `Secret.get` is a pure read — the process state it returns is the one
it was given, in every mode and on every path (value or error). -/
theorem secret_get_pure {ε : Type} (env : PrefectEnv ε) (name : String) :
    (Secret.get env name).finalEnv = env := by
  rw [Secret.get]
  by_cases hg : isFlowBuilding env.context = true
  · simp [hg]
  · by_cases hl : env.use_local_secrets = true
    · cases hlk : lookupKey (env.context.secrets.getD []) name with
      | none => simp [hg, hl, hlk]
      | some value => cases hd : pyJsonLoads value <;> simp [hg, hl, hlk, hd]
    · cases hq : env.clientQuery name <;> simp [hg, hl, hq]

theorem secret_get_no_violation {ε : Type} (env : PrefectEnv ε) (name : String)
    (hg : isFlowBuilding env.context = false) :
    (Secret.get env name).result ≠ .error .contextViolation := by
  rw [Secret.get, if_neg (by simp [hg])]
  by_cases hl : env.use_local_secrets = true
  · cases hlk : lookupKey (env.context.secrets.getD []) name with
    | none => simp [hl, hlk]
    | some value => cases hd : pyJsonLoads value <;> simp [hl, hlk, hd]
  · cases hq : env.clientQuery name <;> simp [hl, hq]

/-- C9, refuting the claim as stated: a stored non-`str` value is not always
returned undecoded.  For the `bytes` value `b"42"` under the name `n`,
`json.loads` (CPython 3.6 and later) accepts the byte string and decodes it,
so resolution returns the integer `42` and not the raw bytes object. -/
theorem secret_get_nonstring_raw_counterexample :
    (PyValue.bytes "42").isStr = false
    ∧ (Secret.get (ε := Unit)
        { context := ⟨none, some [("n", .bytes "42")]⟩,
          use_local_secrets := true, clientQuery := fun _ => .ok .null }
        "n").result = .ok (.int 42)
    ∧ (Secret.get (ε := Unit)
        { context := ⟨none, some [("n", .bytes "42")]⟩,
          use_local_secrets := true, clientQuery := fun _ => .ok .null }
        "n").result ≠ .ok (.bytes "42") :=
  ⟨rfl, rfl, fun h => PyValue.noConfusion (Except.ok.inj h)⟩

/-- C9 as amended: in local mode, a stored value that is neither a `str` nor
a `bytes`-like object is returned unchanged — `json.loads` raises `TypeError`
on it, which the source catches and answers with the raw value.  The `bytes`
case of the original claim is excluded: `json.loads` accepts `bytes`
(see `secret_get_nonstring_raw_counterexample`). -/
theorem secret_get_nonstring_raw {ε : Type} (env : PrefectEnv ε) (name : String)
    (raw : PyValue)
    (hg : isFlowBuilding env.context = false)
    (hl : env.use_local_secrets = true)
    (hm : lookupKey (env.context.secrets.getD []) name = some raw)
    (hns : raw.isStr = false) (hnb : raw.isBytes = false) :
    (Secret.get env name).result = .ok raw := by
  have hd : pyJsonLoads raw = .error .typeError := by
    cases raw with
    | str s => exact absurd hns (by simp [PyValue.isStr])
    | bytes s => exact absurd hnb (by simp [PyValue.isBytes])
    | null => rfl
    | bool b => rfl
    | int i => rfl
    | list xs => rfl
    | dict ms => rfl
  simp [Secret.get, hg, hl, hm, hd]

theorem secret_get_nonstring_raw_witness :
    (Secret.get (ε := Unit)
      { context := ⟨none, some [("answer", .int 42)]⟩,
        use_local_secrets := true, clientQuery := fun _ => .ok .null }
      "answer").result = .ok (.int 42) :=
  secret_get_nonstring_raw _ "answer" (.int 42) rfl rfl rfl rfl rfl

/-- C10: the guard fires exactly when the context's `"flow"` entry is an
actual `Flow` instance — with the key absent or bound to any non-`Flow`
object, resolution never raises the context violation and proceeds to a
backend. -/
theorem secret_get_guard_iff {ε : Type} (env : PrefectEnv ε) (name : String) :
    (Secret.get env name).result = .error .contextViolation
      ↔ env.context.flow = some .flowInstance := by
  constructor
  · intro h
    by_contra hne
    have hg : isFlowBuilding env.context = false := by
      rw [isFlowBuilding]
      rcases hflow : env.context.flow with _ | fe
      · rfl
      · cases fe with
        | flowInstance => exact absurd hflow hne
        | nonFlow => rfl
    exact absurd h (secret_get_no_violation env name hg)
  · intro h
    have hg : isFlowBuilding env.context = true := by rw [isFlowBuilding, h]
    simp [Secret.get, hg]
